import Mathlib

/-!
Verification of the instruction codec and key-macro compiler of the abot
collab-vm client (`src/main.py`) against its natural-language specification.

The embedding is shallow: each Python function of the core is translated to a
Lean function over `List Char` / `String`, with explicit outcomes for the three
ways a call can end: a value, a `None` / error-string return, or an uncaught
exception (modeled as `.crash`).  Loops over an instruction pointer into a
fixed character list are rendered as structural recursion over the suffix of
characters not yet read; a read `keys[ip]` past the end of the list (Python
`IndexError`) is rendered as `.crash`.  Where a loop's step count is not a
structural argument, an explicit fuel argument bounds it; the top-level entry
points supply a fuel that provably cannot run out (each loop iteration consumes
at least one character or one recursive call), so the fuel-exhaustion branch is
unreachable and also returns `.crash`.
-/

namespace Abot

/-- Outcome of `unguac_msg` (`src/main.py:485`): a decoded field list, the
`return None` failure, or an uncaught `IndexError` (`.crash`). -/
inductive DecodeResult where
  | ok : List String → DecodeResult
  | fail : DecodeResult
  | crash : DecodeResult
  deriving DecidableEq, Repr

/-- Accumulating decimal evaluation, the same fold CPython's `int` performs on
a validated digit string: `acc * 10 + value-of-digit`. -/
def digitsVal : Nat → List Char → Option Nat
  | acc, [] => some acc
  | acc, c :: r => if c.isDigit then digitsVal (acc * 10 + (c.toNat - 48)) r else none

/-- Model of Python `int(s)` for a non-negative operand: defined exactly on
nonempty all-digit strings.  (CPython additionally strips whitespace and
accepts a leading `+`/underscores; those inputs are not reachable from the
validated scans of this program and are not modeled.) -/
def pyNatOf : List Char → Option Nat
  | [] => none
  | c :: r => digitsVal 0 (c :: r)

/-- Model of Python `int(s)` including a leading minus sign. -/
def pyIntOf : List Char → Option Int
  | '-' :: r => (pyNatOf r).map (fun n => -(n : Int))
  | cs => (pyNatOf cs).map (fun n => (n : Int))

/-- Model of the inner digit loop of `unguac_msg`
(`while chars[idx].isdecimal(): dist_str += chars[idx]; idx = idx + 1`,
`src/main.py:503`): returns the digit run and the remaining suffix.  When the
run reaches the end of the list the next `chars[idx]` read raises `IndexError`,
modeled as `none`.  Python's `str.isdecimal` is modeled by `Char.isDigit`; the
two agree on ASCII, and the digit runs produced by the program's own encoder
are ASCII. -/
def digitRun : List Char → Option (List Char × List Char)
  | [] => none
  | c :: cs =>
    if c.isDigit then
      match digitRun cs with
      | some (s, r) => some (c :: s, r)
      | none => none
    else
      some ([], c :: cs)

/-- One iteration outcome of a scanning loop: continue with a new suffix and a
new accumulated-result list, or stop the whole call with a final outcome. -/
inductive DecStep where
  | cont : List Char → List String → DecStep
  | stop : DecodeResult → DecStep
  deriving DecidableEq, Repr

/-- Model of one iteration of the `while True` loop of `unguac_msg`
(`src/main.py:500`).  The suffix `cs` holds the characters from the current
`idx` on; `acc` is `result`.  Steps, mirroring the source: read a digit run
(`IndexError` → `.crash` when the run reaches the end of the string); Python
then does `if idx >= 1: idx -= 1` followed later by `idx += 1`, which cancel
except when no digit was read at `idx = 0`, a case that returns `None` at the
`dist_str.isdigit()` test before the increment, so after the run the suffix is
exactly at the `.` check; an empty digit run fails `isdigit` and returns `None`
(`.fail`); the declared `distance` characters are then read one by one
(`IndexError` → `.crash` when fewer than `distance` remain); then
`if idx >= len(chars): return None`, and the separator decides: `,` continues,
`;` ends with success, anything else returns `None`. -/
def unguacBody (cs : List Char) (acc : List String) : DecStep :=
  match digitRun cs with
  | none => .stop .crash
  | some (distStr, rest1) =>
    match pyNatOf distStr with
    | none => .stop .fail
    | some distance =>
      match rest1 with
      | [] => .stop .crash
      | dot :: rest2 =>
        if dot ≠ '.' then .stop .fail
        else if distance ≤ rest2.length then
          match rest2.drop distance with
          | [] => .stop .fail
          | sep :: rest4 =>
            if sep = ',' then .cont rest4 (acc ++ [(⟨rest2.take distance⟩ : String)])
            else if sep = ';' then .stop (.ok (acc ++ [(⟨rest2.take distance⟩ : String)]))
            else .stop .fail
        else .stop .crash

/-- The decode loop: iterate `unguacBody` until it stops.  Each iteration
consumes at least two characters of the suffix, so the fuel passed by
`unguac_msg` (length of the input plus one) cannot run out; the fuel-0 branch
returns `.crash` and is unreachable from `unguac_msg`. -/
def unguacLoop : Nat → List Char → List String → DecodeResult
  | 0, _, _ => .crash
  | fuel + 1, cs, acc =>
    match unguacBody cs acc with
    | .cont cs' acc' => unguacLoop fuel cs' acc'
    | .stop r => r

/-- Model of `unguac_msg` (`src/main.py:485`), the instruction decoder, with
the cache bypassed (the cached variant is defined separately below): empty
input (`if not msg`) decodes to the empty field list, otherwise the
state-machine loop runs over the character list. -/
def unguac_msg (msg : String) : DecodeResult :=
  if msg.data = [] then .ok []
  else unguacLoop (msg.data.length + 1) msg.data []

/-- Model of `guac_msg` (`src/main.py:467`), the instruction encoder:
`','.join(f"{len(arg)}.{arg}" for arg in args) + ";"`.  `len` counts code
points, as does `String.length`. -/
def guac_msg (args : List String) : String :=
  (String.intercalate "," (args.map fun arg => Nat.repr arg.length ++ "." ++ arg)) ++ ";"

/-- Recursive form of the encoder used in proofs: the encoding of a nonempty
field list is the first encoded field followed by `encSuffix` of the rest. -/
def encOne (f : String) : String :=
  Nat.repr f.length ++ "." ++ f

/-- Tail of the encoding after the first field: `;` if no fields remain,
otherwise `,`, the next encoded field, and the rest. -/
def encSuffix : List String → String
  | [] => ";"
  | g :: gs => "," ++ encOne g ++ encSuffix gs

/-! The key-macro compiler `parse_guac_keys` (`src/main.py:131`). -/

/-- Outcome of a `parse_guac_keys` call: the event list, an error string
(Python returns the message as a `str`), or an uncaught exception
(`IndexError`, `ValueError` from `int`, or `RecursionError`), modeled
`.crash`. An event is the tuple appended to `results`: normally a
`(code, state)` pair, but the `<...>` branch can append a longer tuple
(`tuple(map(int, keycodes))` with more than one `:`), so events are lists. -/
inductive KeysResult where
  | ok : List (List Int) → KeysResult
  | err : String → KeysResult
  | crash : KeysResult
  deriving DecidableEq, Repr

/-- One iteration outcome of the `while ip < max_ip` loop: continue with the
remaining suffix and the grown `results`, or stop the call. -/
inductive KeyStep where
  | cont : List Char → List (List Int) → KeyStep
  | stop : KeysResult → KeyStep
  deriving DecidableEq, Repr

/-- Outcome of an inner `while char != t` scan: the collected characters and
the suffix after the terminator, an error return, or an `IndexError`. -/
inductive ScanRes where
  | done : List Char → List Char → ScanRes
  | err : String → ScanRes
  | crash : ScanRes
  deriving DecidableEq, Repr

/-- Approximation of Python `repr` of a one-character string, used only inside
error-message text (no claim inspects message contents). -/
def pyCharRepr (c : Char) : String :=
  "'" ++ String.mk [c] ++ "'"

/-- Approximation of Python `repr` of a string, used only in error messages. -/
def pyStrRepr (cs : List Char) : String :=
  "'" ++ String.mk cs ++ "'"

/-- The `GUAC_KEYS_SPECIAL_MAPPING["escape"]` table (`src/main.py:110`).
The keycode values come from the external `guacamole_keysyms` library
(X11 keysyms); only the key set, not the numeric values, matters to any
claim. -/
def escapeMap : Char → Option Int
  | 'n' => some 65293   -- ENTER
  | 'e' => some 65307   -- ESCAPE
  | 'c' => some 65507   -- CTRL
  | 'a' => some 65513   -- ALT
  | 'b' => some 65288   -- BACKSPACE
  | 'w' => some 65515   -- WIN
  | ')' => some 41      -- ord(")")
  | 's' => some 65505   -- SHIFT
  | 't' => some 65289   -- TAB
  | 'l' => some 65407   -- NUM_LOCK
  | _ => none

/-- The `GUAC_KEYS_SPECIAL_MAPPING["arrow"]` table (`src/main.py:122`). -/
def arrowMap : Char → Option Int
  | 'l' => some 65361
  | 'u' => some 65362
  | 'r' => some 65363
  | 'd' => some 65364
  | _ => none

/-- `UnshiftedKeyCodes.CTRL` from the external `guacamole_keysyms` library. -/
def ctrlCode : Int := 65507

/-- Model of `getattr(KeyIdentifiers, f"F{_f_key}", None)` (`src/main.py:254`):
the function-key attributes `F1`..`F12` of the external library; any other
suffix has no attribute. -/
def fMap : List Char → Option Int
  | ['1'] => some 65470
  | ['2'] => some 65471
  | ['3'] => some 65472
  | ['4'] => some 65473
  | ['5'] => some 65474
  | ['6'] => some 65475
  | ['7'] => some 65476
  | ['8'] => some 65477
  | ['9'] => some 65478
  | ['1', '0'] => some 65479
  | ['1', '1'] => some 65480
  | ['1', '2'] => some 65481
  | _ => none

/-- Python `str.split(":")` on a character list: `""` splits to `[""]`, and
every `:` starts a new (possibly empty) segment. -/
def splitOnColon : List Char → List (List Char)
  | [] => [[]]
  | c :: r =>
    if c = ':' then [] :: splitOnColon r
    else
      match splitOnColon r with
      | g :: gs => (c :: g) :: gs
      | [] => [[c]]

/-- Python list slice `res[s:]` for an `int` index `s` (`src/main.py:335`):
a negative start counts from the end and clamps at 0; a non-negative start
drops that many elements.  In particular `res[-0:]` is `res[0:]`, the WHOLE
list — the negation of zero is zero. -/
def pySliceFrom (res : List (List Int)) (s : Int) : List (List Int) :=
  if s < 0 then res.drop ((res.length : Int) + s).toNat
  else res.drop s.toNat

/-- Python `list(map(int, segments))` over the split segments: any segment on
which `int` raises `ValueError` aborts the whole conversion (`none`). -/
def intsOf : List (List Char) → Option (List Int)
  | [] => some []
  | seg :: r =>
    match pyIntOf seg, intsOf r with
    | some n, some ns => some (n :: ns)
    | _, _ => none

/-- True exactly on the error-string outcome of `parse_guac_keys`. -/
def KeysResult.isErr : KeysResult → Bool
  | .err _ => true
  | _ => false

/-- Model of the inner `while char != t` scans of `parse_guac_keys`
(`src/main.py:173`, 244, 262, 307, 361) together with the `check_inc_ip`
guard (`src/main.py:159`).  `c` is the current character, `rest` the
characters after it, `acc` the collected body (Python collects the opening
character too and strips it with `[1:]`); `.done` returns the body and the
suffix after the terminator.

`check_inc_ip` increments a COPY of the instruction pointer whose default
value was captured when the closure was defined at the top of the current
iteration of the OUTER loop (`ip: int = ip` is evaluated at `def` time), so it
tests `iterationStartIp + 1 > len(keys)` on every call, a condition that is
false whenever the outer loop runs (the loop guard gives
`iterationStartIp < len(keys)`).  The caller therefore passes
`guard := false`; the guard's error return (the `msg` argument) is dead code,
and running off the end instead raises `IndexError` at `char = keys[ip]`,
modeled `.crash`. -/
def scanTo (guard : Bool) (msg : String) (t : Char) : Char → List Char → List Char → ScanRes
  | c, rest, acc =>
    if c = t then .done acc rest
    else if guard then .err msg
    else
      match rest with
      | [] => .crash
      | c' :: r' => scanTo guard msg t c' r' (acc ++ [c])

/-- Model of the numeric-body scans of the `{...}` and `<...>` branches
(`src/main.py:307`, 361), which additionally validate characters: once a `:`
has been seen (`_repeat_hit_group` / `_keycode_hit_state`), validation is
skipped for the rest of the body; before that, every character except the
opening one (`first`, Python `ip != _repeat_ammount_ip`) must be a digit or
`:`.  The `guard`/`msg` arguments model `check_inc_ip` exactly as in
`scanTo`. -/
def scanNum (guard : Bool) (msg errPre : String) (t : Char) :
    Char → List Char → Bool → Bool → List Char → ScanRes
  | c, rest, hit, first, acc =>
    if c = t then .done acc rest
    else
      let hit2 := if c = ':' && !hit then true else hit
      if !c.isDigit && !first && c != ':' && !hit2 then .err (errPre ++ pyCharRepr c)
      else if guard then .err msg
      else
        match rest with
        | [] => .crash
        | c' :: r' => scanNum guard msg errPre t c' r' hit2 false (acc ++ [c])

/-- Association-list model of a Python `dict` lookup, used for
`CONFIG["keys"]` (combo name → combo source string) and for the caches. -/
def lookupAL {β : Type} : List (String × β) → String → Option β
  | [], _ => none
  | (k, v) :: t, key => if k = key then some v else lookupAL t key

/-- Model of one iteration of the outer loop of `parse_guac_keys` for every
branch except `@` (which recurses and therefore lives in `parseLoop`):
`^ \ ~ [ ( ! { | <` and the plain-character fallthrough.  The source guards
the `match char` with `if char in special_chars`, and the ten `case` arms
cover exactly that tuple (the second `case "\\":` arm at `src/main.py:276` is
unreachable: `match` takes the first arm), so the chain of tests plus the
final catch-all is equivalent.  Python errors modeled: an unknown
escape/arrow/function-key name returns an error string; `int()` on a
malformed segment raises `ValueError` (`.crash`); reading past the end of the
input raises `IndexError` (`.crash`). -/
def stepOther (c : Char) (rest : List Char) (res : List (List Int)) : KeyStep :=
  if c = '^' then
    -- ip += 1; check_inc_ip (cannot fire); char = keys[ip]
    match rest with
    | [] => .stop .crash
    | x :: r =>
      .cont r (res ++ [[ctrlCode, 1], [(x.toNat : Int), 1], [(x.toNat : Int), 0], [ctrlCode, 0]])
  else if c = '\\' then
    -- first `case "\\":` arm: press only (the later duplicate arm is dead)
    match rest with
    | [] => .stop .crash
    | x :: r =>
      match escapeMap x with
      | none => .stop (.err ("Invalid special key char: " ++ pyCharRepr x))
      | some k => .cont r (res ++ [[k, 1]])
  else if c = '~' then
    match rest with
    | [] => .stop .crash
    | x :: r =>
      match arrowMap x with
      | none => .stop (.err ("Invalid arrow key char: " ++ pyCharRepr x))
      | some k => .cont r (res ++ [[k, 1], [k, 0]])
  else if c = '!' then
    match rest with
    | [] => .stop .crash
    | x :: r =>
      match escapeMap x with
      | none => .stop (.err ("Invalid special key char: " ++ pyCharRepr x))
      | some k => .cont r (res ++ [[k, 0]])
  else if c = '|' then
    match rest with
    | [] => .stop .crash
    | x :: r =>
      match escapeMap x with
      | none => .stop (.err ("Invalid special key char: " ++ pyCharRepr x))
      | some k => .cont r (res ++ [[k, 1], [k, 0]])
  else if c = '[' then
    match scanTo false "No F escape end" ']' c rest [] with
    | .err m => .stop (.err m)
    | .crash => .stop .crash
    | .done acc r' =>
      match fMap (acc.drop 1) with
      | none => .stop (.err ("Invalid F key: " ++ pyStrRepr (acc.drop 1)))
      | some k => .cont r' (res ++ [[k, 1], [k, 0]])
  else if c = '(' then
    match scanTo false "No ASCII keys end" ')' c rest [] with
    | .err m => .stop (.err m)
    | .crash => .stop .crash
    | .done acc r' =>
      .cont r' (res ++ (acc.drop 1).flatMap fun ch => [[(ch.toNat : Int), 1], [(ch.toNat : Int), 0]])
  else if c = '{' then
    match scanNum false "No repeat end" "Invalid character in repeat: " '}' c rest false true [] with
    | .err m => .stop (.err m)
    | .crash => .stop .crash
    | .done acc r' =>
      -- repeat_groups = body.split(":"); if len < 2: append(1); map(int, ...)
      -- (appending the literal int 1 then mapping int equals mapping int then
      -- appending 1, since int(1) = 1)
      match intsOf (splitOnColon (acc.drop 1)) with
      | none => .stop .crash
      | some ns0 =>
        have ns := if (splitOnColon (acc.drop 1)).length < 2 then ns0 ++ [1] else ns0
        -- repeat_group = results[-repeat_groups[0]:]; extend it repeat_groups[1] times
        .cont r' (res ++ (List.replicate (ns.getD 1 0).toNat (pySliceFrom res (-(ns.headD 0)))).flatten)
  else if c = '<' then
    match scanNum false "No keycpde end" "Invalid character in manual character: " '>' c rest false true [] with
    | .err m => .stop (.err m)
    | .crash => .stop .crash
    | .done acc r' =>
      -- keycodes = body.split(":"); if len < 2: append(1);
      -- results.append(tuple(map(int, keycodes))) — the WHOLE tuple
      match intsOf (splitOnColon (acc.drop 1)) with
      | none => .stop .crash
      | some ns0 =>
        .cont r' (res ++ [if (splitOnColon (acc.drop 1)).length < 2 then ns0 ++ [1] else ns0])
  else
    .cont rest (res ++ [[(c.toNat : Int), 1], [(c.toNat : Int), 0]])

/-- Model of the outer `while ip < max_ip` loop of `parse_guac_keys`
(`src/main.py:156`), cache bypassed (the cached variant threads the cache
state below).  The `@` branch scans the combo name up to `;`, looks it up in
`CONFIG["keys"]` (the `combos` association list), and recursively compiles the
combo body with a fresh `results` list, splicing the events in; an error from
the recursive call is replaced by `f"{name}: combo"`.

The single `fuel` argument decreases on every loop iteration and on every
recursive call; `.crash` at fuel 0 models `RecursionError` (for the recursive
call) — for plain loop iterations the entry point can always be given enough
fuel, and every claim that relies on a crash exhibits one that happens at
every fuel, or one reached with fuel to spare. -/
def parseLoop (combos : List (String × String)) : Nat → List Char → List (List Int) → KeysResult
  | 0, _, _ => .crash
  | _ + 1, [], res => .ok res
  | fuel + 1, c :: rest, res =>
    if c = '@' then
      match scanTo false "No combo end" ';' c rest [] with
      | .err m => .err m
      | .crash => .crash
      | .done acc rest' =>
        match lookupAL combos (String.mk (acc.drop 1)) with
        | none => .err ("No combo " ++ pyStrRepr (acc.drop 1) ++ " found")
        | some body =>
          -- combo = parse_guac_keys(CONFIG["keys"][_combo_name]): a new stack
          -- frame, hence one unit of fuel consumed by the call; with the
          -- budget exhausted the nested loop's fuel-0 case is the modeled
          -- RecursionError
          match parseLoop combos fuel body.data [] with
          | .err _ => .err (String.mk (acc.drop 1) ++ ": combo")
          | .crash => .crash
          | .ok evs => parseLoop combos fuel rest' (res ++ evs)
    else
      match stepOther c rest res with
      | .stop r => r
      | .cont s' res' => parseLoop combos fuel s' res'

/-- Model of `parse_guac_keys` (`src/main.py:131`) with the cache bypassed:
one stack frame (one unit of fuel), then the scanning loop over the macro
string with an initially empty `results`. -/
def parse_guac_keys (combos : List (String × String)) (fuel : Nat) (keys : String) : KeysResult :=
  match fuel with
  | 0 => .crash
  | f + 1 => parseLoop combos f keys.data []

/-! The bounded memo caches `GUAC_CACHE` (`src/main.py:88`) and the cached
variants of the three parsers.  Python dicts keyed on exact inputs are modeled
as association lists with replace-on-existing-key insertion. -/

/-- Python dict assignment `d[k] = v`: replace the value of an existing key,
otherwise append a new entry (insertion order, like a CPython dict). -/
def insertAL {α β : Type} [DecidableEq α] (l : List (α × β)) (key : α) (v : β) :
    List (α × β) :=
  if (l.any fun p => p.1 = key) then l.map (fun p => if p.1 = key then (key, v) else p)
  else l ++ [(key, v)]

/-- Generalization of `lookupAL` to any key type (Python `k in d` / `d[k]`). -/
def lookupAL2 {α β : Type} [DecidableEq α] : List (α × β) → α → Option β
  | [], _ => none
  | (k, v) :: t, key => if k = key then some v else lookupAL2 t key

/-- The entry check `if len(_cache) > CONFIG["max-cache"]: _cache.clear()`
performed by all three parsers before consulting their cache instance. -/
def flushIfOver {α β : Type} (maxC : Nat) (l : List (α × β)) : List (α × β) :=
  if l.length > maxC then [] else l

/-- The three instances of `GUAC_CACHE`: `"guac"` (encode, keyed on the
argument tuple), `"unguac"` (decode, keyed on the wire string), and
`"guac-keys"` (compile, keyed on the macro string). -/
structure GuacCache where
  guac : List (List String × String)
  unguac : List (String × List String)
  guacKeys : List (String × List (List Int))
  deriving DecidableEq, Repr

/-- The initial (empty) cache state. -/
def emptyCache : GuacCache := ⟨[], [], []⟩

/-- Model of `guac_msg` (`src/main.py:467`) with its cache: flush when over
the threshold, then recompute and store.  The hit test of the source is
`elif args in GUAC_CACHE:` — membership in the OUTER `GUAC_CACHE` dict, whose
keys are the three instance names (strings); a tuple of fields never equals
those, so the hit branch is dead code and every call recomputes and stores
(under the post-flush instance). -/
def guac_msg_cached (maxC : Nat) (st : GuacCache) (args : List String) :
    String × GuacCache :=
  (guac_msg args,
    ⟨insertAL (flushIfOver maxC st.guac) args (guac_msg args), st.unguac, st.guacKeys⟩)

/-- Model of `unguac_msg` (`src/main.py:485`) with its cache: the empty-input
special case returns before any cache access; otherwise flush when over the
threshold, return a hit (only possible when not flushed — `elif`), else run
the decode loop, storing the result only on success (the `None` and exception
paths return before the store). -/
def unguac_msg_cached (maxC : Nat) (st : GuacCache) (msg : String) :
    DecodeResult × GuacCache :=
  if msg.data = [] then (.ok [], st)
  else
    match lookupAL2 (flushIfOver maxC st.unguac) msg with
    | some v => (.ok v, ⟨st.guac, flushIfOver maxC st.unguac, st.guacKeys⟩)
    | none =>
      match unguacLoop (msg.data.length + 1) msg.data [] with
      | .ok r =>
        (.ok r, ⟨st.guac, insertAL (flushIfOver maxC st.unguac) msg r, st.guacKeys⟩)
      | other => (other, ⟨st.guac, flushIfOver maxC st.unguac, st.guacKeys⟩)

/-- Model of the loop of `parse_guac_keys` with the cache threaded through:
identical to `parseLoop` except that the recursive `parse_guac_keys` call of
the `@` branch performs the entry flush-then-hit check on the `"guac-keys"`
instance keyed on the combo body, and stores the successful result of a miss
(`GUAC_CACHE["guac-keys"][keys] = results`, with no second threshold check at
the store).  Error returns leave the cache as the nested calls left it. -/
def parseLoopC (combos : List (String × String)) (maxC : Nat) :
    Nat → GuacCache → List Char → List (List Int) → KeysResult × GuacCache
  | 0, st, _, _ => (.crash, st)
  | _ + 1, st, [], res => (.ok res, st)
  | fuel + 1, st, c :: rest, res =>
    if c = '@' then
      match scanTo false "No combo end" ';' c rest [] with
      | .err m => (.err m, st)
      | .crash => (.crash, st)
      | .done acc rest' =>
        match lookupAL combos (String.mk (acc.drop 1)) with
        | none => (.err ("No combo " ++ pyStrRepr (acc.drop 1) ++ " found"), st)
        | some body =>
          match lookupAL2 (flushIfOver maxC st.guacKeys) body with
          | some evs =>
            parseLoopC combos maxC fuel ⟨st.guac, st.unguac, flushIfOver maxC st.guacKeys⟩
              rest' (res ++ evs)
          | none =>
            match parseLoopC combos maxC fuel
                ⟨st.guac, st.unguac, flushIfOver maxC st.guacKeys⟩ body.data [] with
            | (.err _, st1) => (.err (String.mk (acc.drop 1) ++ ": combo"), st1)
            | (.crash, st1) => (.crash, st1)
            | (.ok evs, st1) =>
              parseLoopC combos maxC fuel
                ⟨st1.guac, st1.unguac, insertAL st1.guacKeys body evs⟩ rest' (res ++ evs)
    else
      match stepOther c rest res with
      | .stop r => (r, st)
      | .cont s' res' => parseLoopC combos maxC fuel st s' res'

/-- Model of a top-level `parse_guac_keys` call (`src/main.py:131`) with its
cache: entry flush-then-hit check keyed on the whole macro string, loop on a
miss, store on success. -/
def parse_guac_keys_cached (combos : List (String × String)) (maxC : Nat) :
    Nat → GuacCache → String → KeysResult × GuacCache
  | 0, st, _ => (.crash, st)
  | fuel + 1, st, keys =>
    match lookupAL2 (flushIfOver maxC st.guacKeys) keys with
    | some v => (.ok v, ⟨st.guac, st.unguac, flushIfOver maxC st.guacKeys⟩)
    | none =>
      match parseLoopC combos maxC fuel ⟨st.guac, st.unguac, flushIfOver maxC st.guacKeys⟩
          keys.data [] with
      | (.ok res, st1) => (.ok res, ⟨st1.guac, st1.unguac, insertAL st1.guacKeys keys res⟩)
      | other => other

/-- Consistency of the decode cache with the bypass decoder: every stored
entry is the decode of its key. -/
def UnguacConsistent (st : GuacCache) : Prop :=
  ∀ k v, lookupAL2 st.unguac k = some v → unguac_msg k = .ok v

/-- Consistency of the compile cache with the bypass compiler under the
CURRENT combo lookup: every stored entry is the result of compiling its key
from scratch (with some sufficient stack budget). -/
def KeysConsistent (combos : List (String × String)) (st : GuacCache) : Prop :=
  ∀ k v, lookupAL2 st.guacKeys k = some v → ∃ D, parse_guac_keys combos D k = .ok v

end Abot

namespace Abot

/-! Lemmas about the decimal representation `Nat.repr` used by the encoder's
length prefix. -/

theorem digitChar_isDigit (k : Nat) (h : k < 10) : (Nat.digitChar k).isDigit = true := by
  interval_cases k <;> decide

theorem digitChar_val (k : Nat) (h : k < 10) : (Nat.digitChar k).toNat - 48 = k := by
  interval_cases k <;> decide

theorem toDigitsCore_append (f : Nat) :
    ∀ n ds, n < f → Nat.toDigitsCore 10 f n ds = Nat.toDigitsCore 10 f n [] ++ ds := by
  induction f with
  | zero => intro n ds h; omega
  | succ f ih =>
    intro n ds _
    show Nat.toDigitsCore 10 (f + 1) n ds = Nat.toDigitsCore 10 (f + 1) n [] ++ ds
    simp only [Nat.toDigitsCore]
    by_cases h0 : n / 10 = 0
    · simp [h0]
    · have hn : 0 < n := by
        rcases Nat.eq_zero_or_pos n with h | h
        · subst h; simp at h0
        · exact h
      have hlt' : n / 10 < f := by
        have := Nat.div_lt_self hn (show 1 < 10 by decide)
        omega
      simp only [h0, if_false]
      rw [ih (n / 10) (Nat.digitChar (n % 10) :: ds) hlt',
          ih (n / 10) [Nat.digitChar (n % 10)] hlt']
      simp

theorem toDigitsCore_all_digits (f : Nat) :
    ∀ n ds, (∀ c ∈ ds, c.isDigit = true) → ∀ c ∈ Nat.toDigitsCore 10 f n ds, c.isDigit = true := by
  induction f with
  | zero => intro n ds hds; exact hds
  | succ f ih =>
    intro n ds hds c hc
    have hd : (Nat.digitChar (n % 10)).isDigit = true :=
      digitChar_isDigit _ (Nat.mod_lt _ (by decide))
    simp only [Nat.toDigitsCore] at hc
    by_cases h0 : n / 10 = 0
    · simp only [h0, if_true] at hc
      rcases List.mem_cons.mp hc with hc | hc
      · subst hc; exact hd
      · exact hds c hc
    · simp only [h0, if_false] at hc
      refine ih (n / 10) _ ?_ c hc
      intro d hd'
      rcases List.mem_cons.mp hd' with h | h
      · subst h; exact hd
      · exact hds d h

theorem toDigitsCore_ne_nil (f : Nat) :
    ∀ n ds, 1 ≤ f ∨ ds ≠ [] → Nat.toDigitsCore 10 f n ds ≠ [] := by
  induction f with
  | zero =>
    intro n ds h
    rcases h with h | h
    · omega
    · exact h
  | succ f ih =>
    intro n ds _
    simp only [Nat.toDigitsCore]
    by_cases h0 : n / 10 = 0
    · simp [h0]
    · simp only [h0, if_false]
      exact ih (n / 10) _ (Or.inr (by simp))

theorem toDigitsCore_foldl (f : Nat) :
    ∀ n acc, n < f →
      (Nat.toDigitsCore 10 f n []).foldl (fun a c => a * 10 + (c.toNat - 48)) acc =
        acc * 10 ^ (Nat.toDigitsCore 10 f n []).length + n := by
  induction f with
  | zero => intro n acc h; omega
  | succ f ih =>
    intro n acc hn
    show (Nat.toDigitsCore 10 (f + 1) n []).foldl _ acc = _
    simp only [Nat.toDigitsCore]
    by_cases h0 : n / 10 = 0
    · have h10 : n < 10 := by omega
      simp only [h0, if_true, List.foldl_cons, List.foldl_nil, List.length_cons,
        List.length_nil]
      rw [digitChar_val (n % 10) (Nat.mod_lt _ (by decide))]
      have : n % 10 = n := Nat.mod_eq_of_lt h10
      rw [this]
      ring
    · have hpos : 0 < n := by
        rcases Nat.eq_zero_or_pos n with h | h
        · subst h; simp at h0
        · exact h
      have hlt : n / 10 < f := by
        have := Nat.div_lt_self hpos (show 1 < 10 by decide)
        omega
      simp only [h0, if_false]
      rw [toDigitsCore_append f (n / 10) [Nat.digitChar (n % 10)] hlt]
      rw [List.foldl_append, List.length_append]
      simp only [List.foldl_cons, List.foldl_nil, List.length_cons, List.length_nil]
      rw [ih (n / 10) acc hlt]
      rw [digitChar_val (n % 10) (Nat.mod_lt _ (by decide))]
      have hdm : 10 * (n / 10) + n % 10 = n := Nat.div_add_mod n 10
      rw [pow_succ]
      ring_nf
      omega

theorem repr_all_digits (n : Nat) : ∀ c ∈ (Nat.repr n).data, c.isDigit = true := by
  intro c hc
  exact toDigitsCore_all_digits (n + 1) n [] (by intro c h; cases h) c hc

theorem repr_data_ne_nil (n : Nat) : (Nat.repr n).data ≠ [] :=
  toDigitsCore_ne_nil (n + 1) n [] (Or.inl (by omega))

theorem digitsVal_all_digits (A : List Char) :
    ∀ acc, (∀ c ∈ A, c.isDigit = true) →
      digitsVal acc A = some (A.foldl (fun a c => a * 10 + (c.toNat - 48)) acc) := by
  induction A with
  | nil => intro acc _; rfl
  | cons c r ih =>
    intro acc h
    have hc : c.isDigit = true := h c (by simp)
    simp only [digitsVal, hc, if_true, List.foldl_cons]
    exact ih _ (fun d hd => h d (by simp [hd]))

theorem pyNatOf_repr (n : Nat) : pyNatOf (Nat.repr n).data = some n := by
  have hne := repr_data_ne_nil n
  have hall := repr_all_digits n
  have hdata : (Nat.repr n).data = Nat.toDigitsCore 10 (n + 1) n [] := rfl
  rcases hx : (Nat.repr n).data with _ | ⟨c, r⟩
  · exact absurd hx hne
  · show digitsVal 0 (c :: r) = some n
    rw [← hx]
    rw [digitsVal_all_digits _ 0 hall]
    rw [hdata, toDigitsCore_foldl (n + 1) n 0 (by omega)]
    simp

/-! Lemmas about `digitRun`, the decode loop body and loop. -/

theorem digitRun_exact (ds : List Char) :
    ∀ (c : Char) (rest : List Char), (∀ d ∈ ds, d.isDigit = true) → c.isDigit = false →
      digitRun (ds ++ c :: rest) = some (ds, c :: rest) := by
  induction ds with
  | nil => intro c rest _ hc; simp [digitRun, hc]
  | cons d ds ih =>
    intro c rest hds hc
    have hd : d.isDigit = true := hds d (by simp)
    simp only [List.cons_append, digitRun, hd, if_true, List.append_eq]
    rw [ih c rest (fun x hx => hds x (by simp [hx])) hc]

theorem digitRun_append_ext (cs : List Char) :
    ∀ s r ext, digitRun cs = some (s, r) → digitRun (cs ++ ext) = some (s, r ++ ext) := by
  induction cs with
  | nil => intro s r ext h; exact absurd h (by simp [digitRun])
  | cons c cs ih =>
    intro s r ext h
    rw [digitRun] at h
    rw [List.cons_append, digitRun]
    split at h
    · rename_i hc
      rw [if_pos hc]
      split at h
      · rename_i s0 r0 hin
        simp only [Option.some.injEq, Prod.mk.injEq] at h
        obtain ⟨hs, hr⟩ := h
        subst hs; subst hr
        rw [ih s0 r0 ext hin]
      · exact absurd h (by simp)
    · rename_i hc
      rw [if_neg hc]
      simp only [Option.some.injEq, Prod.mk.injEq] at h
      obtain ⟨hs, hr⟩ := h
      subst hs; subst hr
      simp

theorem intercalate_go_enc (fs : List String) :
    ∀ acc : String, String.intercalate.go acc "," (fs.map encOne) ++ ";" = acc ++ encSuffix fs := by
  induction fs with
  | nil => intro acc; rfl
  | cons g gs ih =>
    intro acc
    show String.intercalate.go (acc ++ "," ++ encOne g) "," (gs.map encOne) ++ ";" = _
    rw [ih (acc ++ "," ++ encOne g)]
    simp [encSuffix, String.append_assoc]

theorem guac_msg_cons (f : String) (fs : List String) :
    guac_msg (f :: fs) = encOne f ++ encSuffix fs := by
  show String.intercalate "," (encOne f :: fs.map encOne) ++ ";" = _
  show String.intercalate.go (encOne f) "," (fs.map encOne) ++ ";" = _
  exact intercalate_go_enc fs (encOne f)

theorem unguacBody_encode_last (f : String) (acc : List String) :
    unguacBody (encOne f ++ encSuffix []).data acc = .stop (.ok (acc ++ [f])) := by
  have hdata : (encOne f ++ encSuffix []).data =
      (Nat.repr f.length).data ++ '.' :: (f.data ++ [';']) := by
    show (Nat.repr f.length ++ "." ++ f ++ ";").data = _
    simp [String.data_append]
  rw [hdata]
  simp only [unguacBody]
  rw [digitRun_exact _ '.' _ (repr_all_digits f.length) (by decide)]
  simp only [pyNatOf_repr]
  have hflen : f.data.length = f.length := rfl
  have htake : (f.data ++ [';']).take f.length = f.data := by
    rw [← hflen]; exact List.take_left f.data [';']
  have hdrop : (f.data ++ [';']).drop f.length = [';'] := by
    rw [← hflen]; exact List.drop_left f.data [';']
  have hle : f.length ≤ (f.data ++ [';']).length := by
    rw [List.length_append, hflen]; omega
  simp [htake, hdrop, hle]

theorem unguacBody_encode_cons (f g : String) (gs : List String) (acc : List String) :
    unguacBody (encOne f ++ encSuffix (g :: gs)).data acc =
      .cont (encOne g ++ encSuffix gs).data (acc ++ [f]) := by
  have hdata : (encOne f ++ encSuffix (g :: gs)).data =
      (Nat.repr f.length).data ++ '.' :: (f.data ++ ',' :: (encOne g ++ encSuffix gs).data) := by
    show (Nat.repr f.length ++ "." ++ f ++ ("," ++ encOne g ++ encSuffix gs)).data = _
    simp [String.data_append]
  rw [hdata]
  simp only [unguacBody]
  rw [digitRun_exact _ '.' _ (repr_all_digits f.length) (by decide)]
  simp only [pyNatOf_repr]
  have hflen : f.data.length = f.length := rfl
  set tl := ',' :: (encOne g ++ encSuffix gs).data with htl
  have htake : (f.data ++ tl).take f.length = f.data := by
    rw [← hflen]; exact List.take_left f.data tl
  have hdrop : (f.data ++ tl).drop f.length = tl := by
    rw [← hflen]; exact List.drop_left f.data tl
  have hle : f.length ≤ (f.data ++ tl).length := by
    rw [List.length_append, hflen]; omega
  simp [htake, hdrop, hle, htl]

theorem unguacLoop_encode (fs : List String) :
    ∀ (f : String) (acc : List String) (fuel : Nat),
      (encOne f ++ encSuffix fs).data.length < fuel →
      unguacLoop fuel (encOne f ++ encSuffix fs).data acc = .ok (acc ++ f :: fs) := by
  induction fs with
  | nil =>
    intro f acc fuel hfuel
    rcases fuel with _ | fuel
    · omega
    rw [unguacLoop, unguacBody_encode_last]
  | cons g gs ih =>
    intro f acc fuel hfuel
    rcases fuel with _ | fuel
    · omega
    rw [unguacLoop, unguacBody_encode_cons]
    show unguacLoop fuel (encOne g ++ encSuffix gs).data (acc ++ [f]) = _
    have hlen2 : (encOne g ++ encSuffix gs).data.length < fuel := by
      have h2 := hfuel
      have hdata : (encOne f ++ encSuffix (g :: gs)).data =
          (Nat.repr f.length).data ++ '.' :: (f.data ++ ',' :: (encOne g ++ encSuffix gs).data) := by
        show (Nat.repr f.length ++ "." ++ f ++ ("," ++ encOne g ++ encSuffix gs)).data = _
        simp [String.data_append]
      rw [hdata] at h2
      simp only [List.length_append, List.length_cons] at h2
      omega
    rw [ih g (acc ++ [f]) fuel hlen2]
    simp

theorem unguacBody_append_cont (cs : List Char) (acc : List String) (cs' : List Char)
    (acc' : List String) (ext : List Char) (h : unguacBody cs acc = .cont cs' acc') :
    unguacBody (cs ++ ext) acc = .cont (cs' ++ ext) acc' := by
  rw [unguacBody] at h
  split at h
  · exact absurd h (by simp)
  rename_i s r hdr
  split at h
  · exact absurd h (by simp)
  rename_i d hpn
  split at h
  · exact absurd h (by simp)
  rename_i dot rest2
  split at h
  · exact absurd h (by simp)
  rename_i hdot
  split at h
  · rename_i hdist
    split at h
    · exact absurd h (by simp)
    rename_i sep rest4 hd2
    rw [unguacBody, digitRun_append_ext cs s _ ext hdr]
    have hle2 : d ≤ (rest2 ++ ext).length := by rw [List.length_append]; omega
    have hdropx : (rest2 ++ ext).drop d = sep :: (rest4 ++ ext) := by
      rw [List.drop_append_of_le_length hdist, hd2, List.cons_append]
    have htakex : (rest2 ++ ext).take d = rest2.take d := List.take_append_of_le_length hdist
    split at h
    · rename_i hsep
      simp only [DecStep.cont.injEq] at h
      obtain ⟨h1, h2⟩ := h
      subst h1; subst h2
      simp [hpn, hdot, hle2, hdropx, htakex, hsep]
      omega
    · split at h
      · exact absurd h (by simp)
      · exact absurd h (by simp)
  · exact absurd h (by simp)

theorem unguacBody_append_ok (cs : List Char) (acc : List String) (v : List String)
    (ext : List Char) (h : unguacBody cs acc = .stop (.ok v)) :
    unguacBody (cs ++ ext) acc = .stop (.ok v) := by
  rw [unguacBody] at h
  split at h
  · exact absurd h (by simp)
  rename_i s r hdr
  split at h
  · exact absurd h (by simp)
  rename_i d hpn
  split at h
  · exact absurd h (by simp)
  rename_i dot rest2
  split at h
  · exact absurd h (by simp)
  rename_i hdot
  split at h
  · rename_i hdist
    split at h
    · exact absurd h (by simp)
    rename_i sep rest4 hd2
    rw [unguacBody, digitRun_append_ext cs s _ ext hdr]
    have hle2 : d ≤ (rest2 ++ ext).length := by rw [List.length_append]; omega
    have hdropx : (rest2 ++ ext).drop d = sep :: (rest4 ++ ext) := by
      rw [List.drop_append_of_le_length hdist, hd2, List.cons_append]
    have htakex : (rest2 ++ ext).take d = rest2.take d := List.take_append_of_le_length hdist
    split at h
    · exact absurd h (by simp)
    · rename_i hsep
      split at h
      · rename_i hsep2
        simp only [DecStep.stop.injEq, DecodeResult.ok.injEq] at h
        subst h
        simp [hpn, hdot, hle2, hdropx, htakex, hsep, hsep2]
        omega
      · exact absurd h (by simp)
  · exact absurd h (by simp)

theorem unguacLoop_mono (fuel : Nat) :
    ∀ cs acc v, unguacLoop fuel cs acc = .ok v → unguacLoop (fuel + 1) cs acc = .ok v := by
  induction fuel with
  | zero => intro cs acc v h; exact absurd h (by simp [unguacLoop])
  | succ fuel ih =>
    intro cs acc v h
    rw [unguacLoop] at h
    split at h
    · rename_i cs' acc' hb
      rw [unguacLoop, hb]
      exact ih cs' acc' v h
    · rename_i r hb
      rw [unguacLoop, hb]
      exact h

theorem unguacLoop_mono_le (fuel fuel' : Nat) (hle : fuel ≤ fuel') :
    ∀ cs acc v, unguacLoop fuel cs acc = .ok v → unguacLoop fuel' cs acc = .ok v := by
  induction fuel' with
  | zero =>
    intro cs acc v h
    have : fuel = 0 := by omega
    subst this; exact h
  | succ fuel' ih =>
    intro cs acc v h
    rcases Nat.lt_or_ge fuel (fuel' + 1) with hlt | hge
    · exact unguacLoop_mono fuel' cs acc v (ih (by omega) cs acc v h)
    · have : fuel = fuel' + 1 := by omega
      subst this; exact h

theorem unguacLoop_append (fuel : Nat) :
    ∀ cs acc v ext, unguacLoop fuel cs acc = .ok v → unguacLoop fuel (cs ++ ext) acc = .ok v := by
  induction fuel with
  | zero => intro cs acc v ext h; exact absurd h (by simp [unguacLoop])
  | succ fuel ih =>
    intro cs acc v ext h
    rw [unguacLoop] at h
    split at h
    · rename_i cs' acc' hb
      rw [unguacLoop, unguacBody_append_cont cs acc cs' acc' ext hb]
      exact ih cs' acc' v ext h
    · rename_i r hb
      rw [h] at hb
      rw [unguacLoop, unguacBody_append_ok cs acc v ext hb]

/-! Claim C1: round-trip of the codec. -/

/-- Claim C1, counterexample: the claim asserts `Decode(Encode(fields)) ==
fields` for every field sequence including the empty one, but `guac_msg []`
produces `";"`, and decoding `";"` is a failure (the digit run at position 0 is
empty), not the empty sequence. -/
theorem c1_empty_roundtrip_cex :
    guac_msg [] = ";" ∧ unguac_msg (guac_msg []) = .fail ∧
      unguac_msg (guac_msg []) ≠ .ok [] := by
  refine ⟨by decide, by decide, by decide⟩

/-- Claim C1, amended: for every nonempty sequence of fields — with arbitrary
content, including `.`, `,`, `;` and digits — decoding the encoding returns
exactly the original sequence.  (The claim fails only for the empty sequence,
whose encoding `";"` does not decode.) -/
theorem c1_roundtrip_nonempty (fields : List String) (h : fields ≠ []) :
    unguac_msg (guac_msg fields) = .ok fields := by
  rcases fields with _ | ⟨f, fs⟩
  · exact absurd rfl h
  rw [guac_msg_cons]
  have hone : (encOne f).data = (Nat.repr f.length).data ++ (("." : String).data ++ f.data) := by
    show (Nat.repr f.length ++ "." ++ f).data = _
    rw [String.data_append, String.data_append, List.append_assoc]
  have hne : (encOne f ++ encSuffix fs).data ≠ [] := by
    rw [String.data_append]
    intro hc
    rcases List.append_eq_nil.mp hc with ⟨h1, _⟩
    rw [hone] at h1
    rcases List.append_eq_nil.mp h1 with ⟨h2, _⟩
    exact repr_data_ne_nil f.length h2
  rw [unguac_msg, if_neg hne]
  rw [unguacLoop_encode fs f [] ((encOne f ++ encSuffix fs).data.length + 1) (by omega)]
  simp

/-- Witness for `c1_roundtrip_nonempty` at the concrete fields
`["chat", "hi"]`, the example frame of the specification. -/
theorem c1_roundtrip_nonempty_w :
    (["chat", "hi"] : List String) ≠ [] ∧
      unguac_msg (guac_msg ["chat", "hi"]) = .ok ["chat", "hi"] :=
  ⟨by decide, c1_roundtrip_nonempty ["chat", "hi"] (by decide)⟩

/-! Claim C3: decode totality. -/

/-- Claim C3: the claim says `unguac_msg` never raises and that a frame whose
declared length runs past the end yields the failure outcome.  In the code,
`"3.ab"` reads `chars[4]` of a 4-character list inside the content loop and
`"3"` reads `chars[1]` of a 1-character list inside the digit loop: both raise
an uncaught `IndexError` (modeled `.crash`) instead of returning `None`. -/
theorem c3_decode_truncated_crash :
    unguac_msg "3.ab" = .crash ∧ unguac_msg "3" = .crash := by
  refine ⟨by decide, by decide⟩

/-! Claim C10: trailing characters after the terminating `;`. -/

/-- Claim C10, counterexample: the claim quantifies over every wire string `W`
that decodes successfully, but for `W = ""` (which decodes to `[]` via the
empty-input special case, not via a `;`) appending `"x"` gives `"x"`, which
fails to decode rather than returning `[]`. -/
theorem c10_empty_prefix_cex :
    unguac_msg "" = .ok [] ∧ unguac_msg ("" ++ "x") ≠ .ok [] := by
  refine ⟨by decide, by decide⟩

/-- Claim C10, amended: for every nonempty wire string that decodes
successfully — such strings decode by reaching a terminating `;` — appending
any suffix leaves the decoded fields unchanged: the loop breaks at the first
terminating `;` and never looks at later characters. -/
theorem c10_trailing_ignored (msg suffix : String) (F : List String)
    (hne : msg ≠ "") (h : unguac_msg msg = .ok F) :
    unguac_msg (msg ++ suffix) = .ok F := by
  have hdne : msg.data ≠ [] := by
    intro hd
    apply hne
    cases msg with
    | mk d =>
      simp only at hd
      subst hd
      rfl
  have hd2 : (msg ++ suffix).data = msg.data ++ suffix.data := String.data_append _ _
  rw [unguac_msg, if_neg hdne] at h
  have hd3 : (msg ++ suffix).data ≠ [] := by
    rw [hd2]
    intro hc
    exact hdne (List.append_eq_nil.mp hc).1
  rw [unguac_msg, if_neg hd3, hd2]
  have h4 := unguacLoop_append (msg.data.length + 1) msg.data [] F suffix.data h
  exact unguacLoop_mono_le (msg.data.length + 1) ((msg.data ++ suffix.data).length + 1)
    (by rw [List.length_append]; omega) _ _ _ h4

/-- Witness for `c10_trailing_ignored` at the concrete frame
`"4.chat,2.hi;"` with trailing garbage `"garbage"`. -/
theorem c10_trailing_ignored_w :
    ("4.chat,2.hi;" : String) ≠ "" ∧
      unguac_msg "4.chat,2.hi;" = .ok ["chat", "hi"] ∧
      unguac_msg ("4.chat,2.hi;" ++ "garbage") = .ok ["chat", "hi"] :=
  ⟨by decide, by decide,
    c10_trailing_ignored "4.chat,2.hi;" "garbage" ["chat", "hi"] (by decide) (by decide)⟩


/-! Claims C4-C8: the key-macro compiler. -/

theorem parseLoop_selfcombo_crash :
    ∀ f, parseLoop [("a", "@a;")] f ("@a;".data) [] = .crash := by
  intro f
  induction f with
  | zero => rfl
  | succ f ih =>
    have hred : parseLoop [("a", "@a;")] (f + 1) ("@a;".data) [] =
        match parseLoop [("a", "@a;")] f ("@a;".data) [] with
        | .err _ => .err ("a" ++ ": combo")
        | .crash => .crash
        | .ok evs => parseLoop [("a", "@a;")] f [] ([] ++ evs) := rfl
    rw [hred, ih]

/-- Claim C5: a combo that references itself (here `CONFIG["keys"]["a"] =
"@a;"`) makes `parse_guac_keys("@a;")` recurse without any base case: at EVERY
stack budget the call ends in the modeled `RecursionError` (`.crash`), never
in the error outcome the claim requires.  (The `if type(combo) == str` guard
only propagates an error already produced below; nothing detects the cycle.) -/
theorem c5_cyclic_combo_crash (fuel : Nat) :
    parse_guac_keys [("a", "@a;")] fuel "@a;" = .crash := by
  cases fuel with
  | zero => rfl
  | succ f => exact parseLoop_selfcombo_crash f

/-- Claim C4: a macro that ends before a required closing delimiter or
required following character crashes with an uncaught `IndexError` instead of
returning the tagged error the claim requires: `check_inc_ip` captures the
iteration-start `ip` as a default argument, so its overflow test can never
fire, and the subsequent `keys[ip]` read goes out of bounds.  Shown at every
stack budget (with fuel to spare) for the claim's four example shapes. -/
theorem c4_unterminated_crash (fuel : Nat) :
    parse_guac_keys [] (fuel + 9) "^" = .crash ∧
    parse_guac_keys [] (fuel + 9) "@name" = .crash ∧
    parse_guac_keys [] (fuel + 9) "(text" = .crash ∧
    parse_guac_keys [] (fuel + 9) "\x7b2" = .crash := by
  refine ⟨rfl, rfl, rfl, rfl⟩

/-- Witness for `c4_unterminated_crash` at stack budget 9. -/
theorem c4_unterminated_crash_w :
    parse_guac_keys [] (0 + 9) "^" = .crash ∧
    parse_guac_keys [] (0 + 9) "@name" = .crash ∧
    parse_guac_keys [] (0 + 9) "(text" = .crash ∧
    parse_guac_keys [] (0 + 9) "\x7b2" = .crash :=
  c4_unterminated_crash 0

/-- Claim C6: for every character in the escape table, `\X` emits exactly the
press event, `!X` exactly the release event, and `|X` press then release; for
every character not in the table each of the three forms returns an error
outcome (a returned message string), at every stack budget. -/
theorem c6_escape_forms (X : Char) (fuel : Nat) :
    (∀ k, escapeMap X = some k →
      parse_guac_keys [] (fuel + 3) (String.mk ['\\', X]) = .ok [[k, 1]] ∧
      parse_guac_keys [] (fuel + 3) (String.mk ['!', X]) = .ok [[k, 0]] ∧
      parse_guac_keys [] (fuel + 3) (String.mk ['|', X]) = .ok [[k, 1], [k, 0]]) ∧
    (escapeMap X = none →
      (parse_guac_keys [] (fuel + 3) (String.mk ['\\', X])).isErr = true ∧
      (parse_guac_keys [] (fuel + 3) (String.mk ['!', X])).isErr = true ∧
      (parse_guac_keys [] (fuel + 3) (String.mk ['|', X])).isErr = true) := by
  constructor
  · intro k hk
    refine ⟨?_, ?_, ?_⟩ <;>
      simp [parse_guac_keys, parseLoop, stepOther, hk]
  · intro hk
    refine ⟨?_, ?_, ?_⟩ <;>
      simp [parse_guac_keys, parseLoop, stepOther, hk, KeysResult.isErr]

/-- Witness for `c6_escape_forms`: `n` (ENTER) is in the table, `x` is not. -/
theorem c6_escape_forms_w :
    parse_guac_keys [] (0 + 3) (String.mk ['\\', 'n']) = .ok [[65293, 1]] ∧
    (parse_guac_keys [] (0 + 3) (String.mk ['\\', 'x'])).isErr = true :=
  ⟨((c6_escape_forms 'n' 0).1 65293 (by decide)).1,
    ((c6_escape_forms 'x' 0).2 (by decide)).1⟩

/-- Claim C7, counterexample: `Compile("(ab){2:2}")` does NOT append 6
trailing events after the initial 4 — `{2:2}` replays the last 2 events 2
times, appending 4, for 8 events total, not 10. -/
theorem c7_six_trailing_cex :
    parse_guac_keys [] 9 "(ab){2:2}" =
      .ok [[97, 1], [97, 0], [98, 1], [98, 0], [98, 1], [98, 0], [98, 1], [98, 0]] ∧
    parse_guac_keys [] 9 "(ab){2:2}" ≠
      .ok ([[97, 1], [97, 0], [98, 1], [98, 0]] ++
        [[98, 1], [98, 0], [98, 1], [98, 0], [98, 1], [98, 0]]) := by
  refine ⟨by decide, by decide⟩

/-- Claim C7, amended: `Compile("(ab){2:2}")` yields the four base events for
`a`, `b` down/up followed by the last 2 of those events repeated 2 more times
— 4 trailing events appended after the initial 4 (not 6). -/
theorem c7_repeat_group_amended :
    parse_guac_keys [] 9 "(ab){2:2}" =
      .ok ([[97, 1], [97, 0], [98, 1], [98, 0]] ++ [[98, 1], [98, 0]] ++ [[98, 1], [98, 0]]) := by
  decide

/-- Claim C8, counterexample: after compiling `a` the events are
`[[97,1],[97,0]]`; the claim says the `{0}` group appends nothing, but
`results[-0:]` is `results[0:]` — the whole list — so `a{0}` compiles to four
events, not two. -/
theorem c8_zero_repeat_cex :
    parse_guac_keys [] 9 "a{0}" ≠ .ok [[97, 1], [97, 0]] ∧
    parse_guac_keys [] 9 "a{0}" = .ok [[97, 1], [97, 0], [97, 1], [97, 0]] := by
  refine ⟨by decide, by decide⟩

/-- Claim C8, amended: a repeat group with N = 0 re-emits ALL events emitted
so far (the `-0` slice is the whole list), M times (M defaults to 1): for any
previously accumulated events `res`, processing `{0}` continues with
`res ++ res`; and `a{0:2}` compiles to three copies of the pair for `a`. -/
theorem c8_zero_repeat_amended (combos : List (String × String)) (fuel : Nat)
    (res : List (List Int)) :
    parseLoop combos (fuel + 2) ("{0}".data) res = .ok (res ++ res) ∧
    parse_guac_keys [] 9 "a{0:2}" =
      .ok [[97, 1], [97, 0], [97, 1], [97, 0], [97, 1], [97, 0]] := by
  constructor
  · simp [parseLoop, stepOther, scanNum, splitOnColon, intsOf, pyIntOf, pyNatOf,
      digitsVal, pySliceFrom]
  · decide


/-! Claims C2 and C9: the bounded memo caches. -/

theorem flushIfOver_length_le {α β : Type} (maxC : Nat) (l : List (α × β)) :
    (flushIfOver maxC l).length ≤ maxC := by
  rw [flushIfOver]
  split
  · simp
  · omega

theorem flushIfOver_lookup {α β : Type} [DecidableEq α] (maxC : Nat) (l : List (α × β))
    (k : α) (v : β) (h : lookupAL2 (flushIfOver maxC l) k = some v) :
    lookupAL2 l k = some v := by
  rw [flushIfOver] at h
  split at h
  · exact absurd h (by simp [lookupAL2])
  · exact h

theorem insertAL_length_le {α β : Type} [DecidableEq α] (l : List (α × β)) (k : α) (v : β) :
    (insertAL l k v).length ≤ l.length + 1 := by
  rw [insertAL]
  split
  · simp
  · simp

theorem lookupAL2_map_replace {α β : Type} [DecidableEq α] (k : α) (v : β) (k' : α) (w : β) :
    ∀ l : List (α × β),
      lookupAL2 (l.map (fun p => if p.1 = k then (k, v) else p)) k' = some w →
      (k' = k ∧ w = v) ∨ lookupAL2 l k' = some w := by
  intro l
  induction l with
  | nil => intro h; exact absurd h (by simp [lookupAL2])
  | cons p t ih =>
    obtain ⟨a, b⟩ := p
    intro h
    rw [List.map_cons] at h
    by_cases hp : a = k
    · rw [show (if (a, b).1 = k then (k, v) else (a, b)) = (k, v) by simp [hp]] at h
      rw [lookupAL2] at h
      by_cases hk : k = k'
      · rw [if_pos hk] at h
        exact Or.inl ⟨hk.symm, (Option.some.inj h).symm⟩
      · rw [if_neg hk] at h
        rcases ih h with h1 | h1
        · exact Or.inl h1
        · right
          rw [lookupAL2, if_neg (by rw [hp]; exact hk)]
          exact h1
    · rw [show (if (a, b).1 = k then (k, v) else (a, b)) = (a, b) by simp [hp]] at h
      rw [lookupAL2] at h
      rw [lookupAL2]
      by_cases hk : a = k'
      · rw [if_pos hk] at h ⊢
        exact Or.inr h
      · rw [if_neg hk] at h ⊢
        rcases ih h with h1 | h1
        · exact Or.inl h1
        · exact Or.inr h1

theorem lookupAL2_append_single {α β : Type} [DecidableEq α] (k : α) (v : β) (k' : α) (w : β) :
    ∀ l : List (α × β),
      lookupAL2 (l ++ [(k, v)]) k' = some w →
      (k' = k ∧ w = v) ∨ lookupAL2 l k' = some w := by
  intro l
  induction l with
  | nil =>
    intro h
    rw [List.nil_append, lookupAL2] at h
    by_cases hk : k = k'
    · rw [if_pos hk] at h
      exact Or.inl ⟨hk.symm, (Option.some.inj h).symm⟩
    · rw [if_neg hk] at h
      exact absurd h (by simp [lookupAL2])
  | cons p t ih =>
    obtain ⟨a, b⟩ := p
    intro h
    rw [List.cons_append, lookupAL2] at h
    rw [lookupAL2]
    by_cases hk : a = k'
    · rw [if_pos hk] at h ⊢
      exact Or.inr h
    · rw [if_neg hk] at h ⊢
      rcases ih h with h1 | h1
      · exact Or.inl h1
      · exact Or.inr h1

theorem insertAL_lookup {α β : Type} [DecidableEq α] (l : List (α × β)) (k : α) (v : β)
    (k' : α) (w : β) (h : lookupAL2 (insertAL l k v) k' = some w) :
    (k' = k ∧ w = v) ∨ lookupAL2 l k' = some w := by
  rw [insertAL] at h
  split at h
  · exact lookupAL2_map_replace k v k' w l h
  · exact lookupAL2_append_single k v k' w l h

theorem parseLoopC_guacKeys_bound (combos : List (String × String)) (maxC : Nat) :
    ∀ fuel st s res,
      ((parseLoopC combos maxC fuel st s res).2).guacKeys.length ≤
        max st.guacKeys.length (maxC + 1 + fuel) := by
  intro fuel
  induction fuel with
  | zero =>
    intro st s res
    simp [parseLoopC]
  | succ fuel ih =>
    intro st s res
    match s with
    | [] => simp [parseLoopC]
    | c :: rest =>
      rw [parseLoopC]
      by_cases hc : c = '@'
      · rw [if_pos hc]
        split
        · simp
        · simp
        · rename_i acc2 rest2 hscan
          split
          · simp
          · rename_i body hbody
            split
            · rename_i evs hhit
              have h1 := ih ⟨st.guac, st.unguac, flushIfOver maxC st.guacKeys⟩ rest2 (res ++ evs)
              have h4 := flushIfOver_length_le maxC st.guacKeys
              simp at h1 ⊢
              omega
            · rename_i hmiss
              split
              · rename_i st1 heq1
                have h1 := ih ⟨st.guac, st.unguac, flushIfOver maxC st.guacKeys⟩ body.data []
                rw [heq1] at h1
                have h4 := flushIfOver_length_le maxC st.guacKeys
                simp at h1 ⊢
                omega
              · rename_i st1 heq1
                have h1 := ih ⟨st.guac, st.unguac, flushIfOver maxC st.guacKeys⟩ body.data []
                rw [heq1] at h1
                have h4 := flushIfOver_length_le maxC st.guacKeys
                simp at h1 ⊢
                omega
              · rename_i evs st1 heq1
                have h1 := ih ⟨st.guac, st.unguac, flushIfOver maxC st.guacKeys⟩ body.data []
                rw [heq1] at h1
                have h2 := ih ⟨st1.guac, st1.unguac, insertAL st1.guacKeys body evs⟩ rest2 (res ++ evs)
                have h3 := insertAL_length_le st1.guacKeys body evs
                have h4 := flushIfOver_length_le maxC st.guacKeys
                simp at h1 h2 ⊢
                omega
      · rw [if_neg hc]
        split
        · simp
        · rename_i s2 res2 hstep
          have h1 := ih st s2 res2
          simp at h1 ⊢
          omega

/-- Claim C9, counterexample: with `max-cache = 0` a single compile call on a
macro that references one combo leaves TWO entries in the `"guac-keys"`
instance (the nested `parse_guac_keys("x")` stores `"x"` after the entry
check, then the outer call stores `"@a;"` with no further check), exceeding
the claimed bound `max-cache + 1 = 1`. -/
theorem c9_nested_insert_cex :
    ((parse_guac_keys_cached [("a", "x")] 0 9 emptyCache "@a;").2).guacKeys.length = 2 ∧
    ¬(((parse_guac_keys_cached [("a", "x")] 0 9 emptyCache "@a;").2).guacKeys.length ≤ 0 + 1) := by
  refine ⟨by decide, by decide⟩

/-- Claim C9, amended: after any encode call the `"guac"` instance holds at
most `max-cache + 1` entries, unconditionally (flush check, then at most one
store); after any decode call the `"unguac"` instance holds at most
`max(entry count, max-cache + 1)` entries (the empty-input path touches
nothing; every other path flushes-then-stores-at-most-once); after a compile
call the `"guac-keys"` instance is bounded by
`max(entry count, max-cache + 1 + budget)` — each nested combo compile can
add one entry after the outer flush check, so the compile instance can exceed
`max-cache + 1` by the combo nesting depth (see the counterexample). -/
theorem c9_cache_bounds_amended (maxC : Nat) (st : GuacCache) :
    (∀ args, ((guac_msg_cached maxC st args).2).guac.length ≤ maxC + 1) ∧
    (∀ msg, ((unguac_msg_cached maxC st msg).2).unguac.length ≤
      max st.unguac.length (maxC + 1)) ∧
    (∀ combos fuel keys,
      ((parse_guac_keys_cached combos maxC fuel st keys).2).guacKeys.length ≤
        max st.guacKeys.length (maxC + 1 + fuel)) := by
  refine ⟨?_, ?_, ?_⟩
  · intro args
    have h1 := insertAL_length_le (flushIfOver maxC st.guac) args (guac_msg args)
    have h2 := flushIfOver_length_le maxC st.guac
    show (insertAL (flushIfOver maxC st.guac) args (guac_msg args)).length ≤ maxC + 1
    omega
  · intro msg
    rw [unguac_msg_cached]
    have h2 := flushIfOver_length_le maxC st.unguac
    split
    · simp
    · split
      · simp
        omega
      · split
        · rename_i r _
          have h1 := insertAL_length_le (flushIfOver maxC st.unguac) msg r
          simp
          omega
        · simp
          omega
  · intro combos fuel keys
    have h2 := flushIfOver_length_le maxC st.guacKeys
    match fuel with
    | 0 => simp [parse_guac_keys_cached]
    | f + 1 =>
      rw [parse_guac_keys_cached]
      split
      · simp only
        omega
      · split
        · rename_i res st1 heq1
          have h1 := parseLoopC_guacKeys_bound combos maxC f
            ⟨st.guac, st.unguac, flushIfOver maxC st.guacKeys⟩ keys.data []
          rw [heq1] at h1
          have h3 := insertAL_length_le st1.guacKeys keys res
          simp at h1 ⊢
          omega
        · rename_i other heq1
          have h1 := parseLoopC_guacKeys_bound combos maxC f
            ⟨st.guac, st.unguac, flushIfOver maxC st.guacKeys⟩ keys.data []
          simp at h1 ⊢
          omega


theorem parseLoop_mono (combos : List (String × String)) :
    ∀ F s res v, parseLoop combos F s res = .ok v → parseLoop combos (F + 1) s res = .ok v := by
  intro F
  induction F with
  | zero => intro s res v h; exact absurd h (by simp [parseLoop])
  | succ F ih =>
    intro s res v h
    match s with
    | [] => exact h
    | c :: rest =>
      rw [parseLoop] at h
      rw [parseLoop]
      by_cases hc : c = '@'
      · rw [if_pos hc] at h ⊢
        split at h
        · exact absurd h (by simp)
        · exact absurd h (by simp)
        · rename_i acc rest' hscan
          split at h
          · exact absurd h (by simp)
          · rename_i body hbody
            split at h
            · exact absurd h (by simp)
            · exact absurd h (by simp)
            · rename_i evs hrec
              have hrec2 := ih body.data [] evs hrec
              have hcont := ih rest' (res ++ evs) v h
              simp [hrec2, hcont]
      · rw [if_neg hc] at h ⊢
        split at h
        · exact h
        · rename_i s2 res2 hstep
          exact ih s2 res2 v h

theorem parseLoop_mono_le (combos : List (String × String)) (F F2 : Nat) (hle : F ≤ F2) :
    ∀ s res v, parseLoop combos F s res = .ok v → parseLoop combos F2 s res = .ok v := by
  induction F2 with
  | zero =>
    intro s res v h
    have : F = 0 := by omega
    subst this; exact h
  | succ F2 ih =>
    intro s res v h
    rcases Nat.lt_or_ge F (F2 + 1) with hlt | hge
    · exact parseLoop_mono combos F2 s res v (ih (by omega) s res v h)
    · have : F = F2 + 1 := by omega
      subst this; exact h

theorem parse_guac_keys_loop_of_ok (combos : List (String × String)) (D : Nat) (k : String)
    (v : List (List Int)) (h : parse_guac_keys combos D k = .ok v) :
    ∃ d, parseLoop combos d k.data [] = .ok v := by
  match D with
  | 0 => exact absurd h (by simp [parse_guac_keys])
  | d + 1 => exact ⟨d, h⟩

theorem parseLoop_combo_build (combos : List (String × String)) (c : Char) (rest : List Char)
    (res : List (List Int)) (acc rest' : List Char) (body : String)
    (hc : c = '@')
    (hscan : scanTo false "No combo end" ';' c rest [] = .done acc rest')
    (hbody : lookupAL combos (String.mk (acc.drop 1)) = some body)
    (db : Nat) (evs : List (List Int)) (hdb : parseLoop combos db body.data [] = .ok evs)
    (d2 : Nat) (v : List (List Int)) (hd2 : parseLoop combos d2 rest' (res ++ evs) = .ok v) :
    parseLoop combos (max db d2 + 1) (c :: rest) res = .ok v := by
  rw [parseLoop, if_pos hc, hscan]
  have h1 : parseLoop combos (max db d2) body.data [] = .ok evs :=
    parseLoop_mono_le combos db (max db d2) (Nat.le_max_left db d2) _ _ _ hdb
  have h2 : parseLoop combos (max db d2) rest' (res ++ evs) = .ok v :=
    parseLoop_mono_le combos d2 (max db d2) (Nat.le_max_right db d2) _ _ _ hd2
  have hbody2 : lookupAL combos (String.mk acc.tail) = some body := by
    simpa using hbody
  simp [hbody, hbody2, h1, h2]

theorem KeysConsistent_flush (combos : List (String × String)) (maxC : Nat) (st : GuacCache)
    (h : KeysConsistent combos st) :
    KeysConsistent combos ⟨st.guac, st.unguac, flushIfOver maxC st.guacKeys⟩ :=
  fun k v hk => h k v (flushIfOver_lookup maxC st.guacKeys k v hk)

theorem KeysConsistent_insert (combos : List (String × String)) (st1 : GuacCache)
    (body : String) (evs : List (List Int))
    (hst1 : KeysConsistent combos st1)
    (hbody : ∃ D, parse_guac_keys combos D body = .ok evs) :
    KeysConsistent combos ⟨st1.guac, st1.unguac, insertAL st1.guacKeys body evs⟩ := by
  intro k v hk
  rcases insertAL_lookup st1.guacKeys body evs k v hk with ⟨hk1, hv1⟩ | h2
  · subst hk1; subst hv1; exact hbody
  · exact hst1 k v h2

theorem parseLoopC_sound (combos : List (String × String)) (maxC : Nat) :
    ∀ fuel st s res, KeysConsistent combos st →
      KeysConsistent combos ((parseLoopC combos maxC fuel st s res).2) ∧
      (∀ v, (parseLoopC combos maxC fuel st s res).1 = .ok v →
        ∃ D, parseLoop combos D s res = .ok v) := by
  intro fuel
  induction fuel with
  | zero =>
    intro st s res hcon
    refine ⟨?_, ?_⟩
    · simpa [parseLoopC] using hcon
    · intro v hv; exact absurd hv (by simp [parseLoopC])
  | succ fuel ih =>
    intro st s res hcon
    match s with
    | [] =>
      refine ⟨?_, ?_⟩
      · simpa [parseLoopC] using hcon
      · intro v hv
        simp only [parseLoopC] at hv
        refine ⟨1, ?_⟩
        rw [parseLoop]
        exact hv
    | c :: rest =>
      rw [parseLoopC]
      by_cases hc : c = '@'
      · rw [if_pos hc]
        split
        · exact ⟨by simpa using hcon, fun v hv => absurd hv (by simp)⟩
        · exact ⟨by simpa using hcon, fun v hv => absurd hv (by simp)⟩
        · rename_i acc rest' hscan
          split
          · exact ⟨by simpa using hcon, fun v hv => absurd hv (by simp)⟩
          · rename_i body hbody
            split
            · -- hit: cached events spliced in
              rename_i evs hhit
              have hconf := KeysConsistent_flush combos maxC st hcon
              have hpure0 : ∃ D, parse_guac_keys combos D body = .ok evs :=
                hconf body evs hhit
              have hrest := ih ⟨st.guac, st.unguac, flushIfOver maxC st.guacKeys⟩
                rest' (res ++ evs) hconf
              refine ⟨hrest.1, fun v hv => ?_⟩
              rcases hrest.2 v hv with ⟨d2, hd2⟩
              rcases hpure0 with ⟨D, hD⟩
              rcases parse_guac_keys_loop_of_ok combos D body evs hD with ⟨db, hdb⟩
              exact ⟨max db d2 + 1,
                parseLoop_combo_build combos c rest res acc rest' body hc hscan hbody
                  db evs hdb d2 v hd2⟩
            · -- miss: nested loop call, then store
              rename_i hhit
              have hconf := KeysConsistent_flush combos maxC st hcon
              have hinner := ih ⟨st.guac, st.unguac, flushIfOver maxC st.guacKeys⟩
                body.data [] hconf
              split
              · rename_i m2 st1 heq1
                rw [heq1] at hinner
                exact ⟨by simpa using hinner.1, fun v hv => absurd hv (by simp)⟩
              · rename_i st1 heq1
                rw [heq1] at hinner
                exact ⟨by simpa using hinner.1, fun v hv => absurd hv (by simp)⟩
              · rename_i evs st1 heq1
                rw [heq1] at hinner
                have hst1 : KeysConsistent combos st1 := by simpa using hinner.1
                have hpure : ∃ d, parseLoop combos d body.data [] = .ok evs :=
                  hinner.2 evs (by simp)
                have hins : KeysConsistent combos
                    ⟨st1.guac, st1.unguac, insertAL st1.guacKeys body evs⟩ :=
                  KeysConsistent_insert combos st1 body evs hst1
                    (by rcases hpure with ⟨d, hd⟩; exact ⟨d + 1, hd⟩)
                have hrest := ih ⟨st1.guac, st1.unguac, insertAL st1.guacKeys body evs⟩
                  rest' (res ++ evs) hins
                refine ⟨hrest.1, fun v hv => ?_⟩
                rcases hrest.2 v hv with ⟨d2, hd2⟩
                rcases hpure with ⟨db, hdb⟩
                exact ⟨max db d2 + 1,
                  parseLoop_combo_build combos c rest res acc rest' body hc hscan hbody
                    db evs hdb d2 v hd2⟩
      · rw [if_neg hc]
        rcases hstep : stepOther c rest res with ⟨s2, res2⟩ | r
        · have hrec := ih st s2 res2 hcon
          refine ⟨hrec.1, fun v hv => ?_⟩
          rcases hrec.2 v hv with ⟨d2, hd2⟩
          refine ⟨d2 + 1, ?_⟩
          rw [parseLoop, if_neg hc, hstep]
          exact hd2
        · refine ⟨by simpa using hcon, fun v hv => ?_⟩
          refine ⟨1, ?_⟩
          rw [parseLoop, if_neg hc, hstep]
          simp at hv
          rw [hv]

theorem unguac_msg_cached_sound (maxC : Nat) (st : GuacCache) (msg : String)
    (hcon : UnguacConsistent st) :
    (unguac_msg_cached maxC st msg).1 = unguac_msg msg ∧
    UnguacConsistent (unguac_msg_cached maxC st msg).2 := by
  rw [unguac_msg_cached]
  by_cases hm : msg.data = []
  · rw [if_pos hm]
    exact ⟨by rw [unguac_msg, if_pos hm], hcon⟩
  · rw [if_neg hm]
    split
    · rename_i v hhit
      refine ⟨?_, ?_⟩
      · exact (hcon msg v (flushIfOver_lookup maxC st.unguac msg v hhit)).symm
      · intro k v2 hk2
        exact hcon k v2 (flushIfOver_lookup maxC st.unguac k v2 hk2)
    · rename_i hhit
      split
      · rename_i r hloop
        refine ⟨?_, ?_⟩
        · rw [unguac_msg, if_neg hm, hloop]
        · intro k v2 hk2
          rcases insertAL_lookup (flushIfOver maxC st.unguac) msg r k v2 hk2 with
            ⟨hk, hv⟩ | h2
          · subst hk; subst hv
            rw [unguac_msg, if_neg hm]
            exact hloop
          · exact hcon k v2 (flushIfOver_lookup maxC st.unguac k v2 h2)
      · refine ⟨?_, ?_⟩
        · rw [unguac_msg, if_neg hm]
        · intro k v2 hk2
          exact hcon k v2 (flushIfOver_lookup maxC st.unguac k v2 hk2)

theorem parse_guac_keys_cached_sound (combos : List (String × String)) (maxC : Nat)
    (fuel : Nat) (st : GuacCache) (keys : String) (hcon : KeysConsistent combos st) :
    KeysConsistent combos (parse_guac_keys_cached combos maxC fuel st keys).2 ∧
    ∀ v, (parse_guac_keys_cached combos maxC fuel st keys).1 = .ok v →
      ∃ D, parse_guac_keys combos D keys = .ok v := by
  match fuel with
  | 0 =>
    rw [parse_guac_keys_cached]
    exact ⟨hcon, fun v hv => absurd hv (by simp)⟩
  | fuel + 1 =>
    rw [parse_guac_keys_cached]
    split
    · rename_i v0 hhit
      have hconf := KeysConsistent_flush combos maxC st hcon
      refine ⟨hconf, fun v hv => ?_⟩
      simp at hv
      subst hv
      exact hconf keys v0 hhit
    · rename_i hhit
      have hconf := KeysConsistent_flush combos maxC st hcon
      have hsound := parseLoopC_sound combos maxC fuel
        ⟨st.guac, st.unguac, flushIfOver maxC st.guacKeys⟩ keys.data [] hconf
      split
      · rename_i res0 st1 heq1
        rw [heq1] at hsound
        have hst1 : KeysConsistent combos st1 := by simpa using hsound.1
        have hpure : ∃ d, parseLoop combos d keys.data [] = .ok res0 :=
          hsound.2 res0 (by simp)
        refine ⟨?_, fun v hv => ?_⟩
        · exact KeysConsistent_insert combos st1 keys res0 hst1
            (by rcases hpure with ⟨d, hd⟩; exact ⟨d + 1, hd⟩)
        · simp at hv
          subst hv
          rcases hpure with ⟨d, hd⟩
          exact ⟨d + 1, hd⟩
      · refine ⟨hsound.1, fun v hv => ?_⟩
        rcases hsound.2 v hv with ⟨d, hd⟩
        exact ⟨d + 1, hd⟩

/-- C2 (counterexample): the compile cache is NOT transparent across combo
redefinition.  Sharing the cache state of a first `parse_guac_keys` call made
while combo `a` expanded to `"x"`, a second call for the same macro `"@a;"`
after `a` is redefined to `"y"` returns the stale events for `"x"`
(press/release of keysym 120), while a fresh compile returns the events for
`"y"` (keysym 121).  The cache key is the macro text alone; combo definitions
are not part of it (`src/main.py:137-141`, `src/main.py:384-398`). -/
theorem c2_stale_combo_cex :
    (parse_guac_keys_cached [("a", "y")] 5 10
        (parse_guac_keys_cached [("a", "x")] 5 10 emptyCache "@a;").2 "@a;").1
      = .ok [[120, 1], [120, 0]] ∧
    parse_guac_keys [("a", "y")] 10 "@a;" = .ok [[121, 1], [121, 0]] := by
  decide

/-- C2 (amended): cache transparency holds in the restricted form that is
true of the code.  Encoding is unconditionally transparent (the hit branch is
dead, so every call recomputes).  Decoding is transparent from any cache
state consistent with the bypass decoder, and preserves consistency.
Compilation, from any cache state consistent with the CURRENT combo table,
preserves consistency, and any `ok` value it returns is the result of some
fresh uncached compile of the same macro (at some stack budget) — but
consistency is relative to the combo table, so transparency can fail when
combos change between calls, as `c2_stale_combo_cex` shows. -/
theorem c2_cache_transparency_amended (maxC : Nat) (st : GuacCache) :
    (∀ args, (guac_msg_cached maxC st args).1 = guac_msg args) ∧
    (UnguacConsistent st → ∀ msg,
      (unguac_msg_cached maxC st msg).1 = unguac_msg msg ∧
      UnguacConsistent (unguac_msg_cached maxC st msg).2) ∧
    (∀ combos fuel keys, KeysConsistent combos st →
      KeysConsistent combos (parse_guac_keys_cached combos maxC fuel st keys).2 ∧
      ∀ v, (parse_guac_keys_cached combos maxC fuel st keys).1 = .ok v →
        ∃ D, parse_guac_keys combos D keys = .ok v) :=
  ⟨fun _ => rfl,
   fun h msg => unguac_msg_cached_sound maxC st msg h,
   fun combos fuel keys h => parse_guac_keys_cached_sound combos maxC fuel st keys h⟩

/-- Witness for `c2_cache_transparency_amended` at the empty cache: the
consistency hypotheses hold vacuously, a cached decode of a concrete wire
string agrees with the bypass decoder, and the concrete `ok` result of a
cached compile is reproduced by a fresh compile. -/
theorem c2_cache_transparency_amended_w :
    (unguac_msg_cached 2 emptyCache "2.hi,1.x;").1 = unguac_msg "2.hi,1.x;" ∧
    ∃ D, parse_guac_keys [("a", "x")] D "@a;" = .ok [[120, 1], [120, 0]] :=
  ⟨((c2_cache_transparency_amended 2 emptyCache).2.1
      (fun _ _ hk => nomatch hk) "2.hi,1.x;").1,
   ((c2_cache_transparency_amended 2 emptyCache).2.2 [("a", "x")] 9 "@a;"
      (fun _ _ hk => nomatch hk)).2 [[120, 1], [120, 0]] (by decide)⟩

end Abot
